import Mathlib

/-!
Verification of the digital-filter / adaptive-estimation pipeline of the
AI-Agent-Stock-Prediction repository.

Numbers are modelled as rationals.  The transcendental functions used by the
source (`math.exp`, `math.cos`, `np.sin`) and the constant `math.pi` have no
computable exact counterpart on ℚ, so the embedding is parametrised by an
oracle `Trig` supplying them; every theorem below either holds for all oracles
or is instantiated at an explicit concrete oracle.
-/

/-- Oracle for the transcendental functions and the constant pi that the
Python source obtains from `math` / `numpy`. -/
structure Trig where
  exp : ℚ → ℚ
  cos : ℚ → ℚ
  sin : ℚ → ℚ
  pi : ℚ

/-- Concrete oracle used to evaluate the model on explicit inputs. -/
def Trig0 : Trig where
  exp := fun _ => 0
  cos := fun _ => 0
  sin := fun _ => 0
  pi := 0

/-- Dot product of two coefficient lists, as computed by `np.dot` on two
equal-length 1-D arrays. -/
def dot (a b : List ℚ) : ℚ :=
  (List.zipWith (fun x y => x * y) a b).sum

namespace CycleDet

/-!
Embedding of `src/Indicators/Cycle_detector.py`.
-/

/-- Loop of `highpass_filter` (`Cycle_detector.py` lines 55-61): state carries
the previous two inputs `xm1, xm2` and the previous two outputs `ym1, ym2`;
each step emits `c1*(x[i] - 2*x[i-1] + x[i-2]) + c2*out[i-1] + c3*out[i-2]`. -/
def hpLoop (c1 c2 c3 : ℚ) : List ℚ → ℚ → ℚ → ℚ → ℚ → List ℚ
  | [], _, _, _, _ => []
  | xi :: rest, xm1, xm2, ym1, ym2 =>
    let y := c1 * (xi - 2 * xm1 + xm2) + c2 * ym1 + c3 * ym2
    y :: hpLoop c1 c2 c3 rest xi xm1 y ym1

/-- Embeds `highpass_filter` of `Cycle_detector.py` (lines 40-63), on an input
that is already a flat numeric list (on such inputs `to_float_list` is the
identity): series shorter than 3 yields all zeros of the same length;
otherwise output[0] = output[1] = 0 and the two-pole recursion runs from
index 2. -/
def highpass_filter (T : Trig) (price_series : List ℚ) (period : ℚ) : List ℚ :=
  if price_series.length < 3 then List.replicate price_series.length 0
  else
    let a1 := T.exp (-1.414 * T.pi / period)
    let b1 := 2 * a1 * T.cos (1.414 * 180 / period)
    let c1 := (1 + b1) / 4
    let c2 := b1
    let c3 := -(a1 ^ 2)
    match price_series with
    | x0 :: x1 :: rest => 0 :: 0 :: hpLoop c1 c2 c3 rest x1 x0 0 0
    | l => List.replicate l.length 0

/-- Loop of `super_smoother` (`Cycle_detector.py` lines 82-87): state carries
the previous input `xm1` and the previous two outputs `ym1, ym2`; each step
emits `c1*(x[i] + x[i-1])/2 + c2*ss[i-1] + c3*ss[i-2]`. -/
def ssLoop (c1 c2 c3 : ℚ) : List ℚ → ℚ → ℚ → ℚ → List ℚ
  | [], _, _, _ => []
  | xi :: rest, xm1, ym1, ym2 =>
    let y := c1 * (xi + xm1) / 2 + c2 * ym1 + c3 * ym2
    y :: ssLoop c1 c2 c3 rest xi y ym1

/-- Embeds `super_smoother` of `Cycle_detector.py` (lines 65-88): series
shorter than 2 is returned unchanged; otherwise ss[0] = x[0], ss[1] = x[1]
and the two-pole recursion runs from index 2. -/
def super_smoother (T : Trig) (price_series : List ℚ) (period : ℚ) : List ℚ :=
  if price_series.length < 2 then price_series
  else
    let a1 := T.exp (-1.414 * T.pi / period)
    let b1 := 2 * a1 * T.cos (1.414 * 180 / period)
    let c1 := 1 - b1 + a1 ^ 2
    let c2 := b1
    let c3 := -(a1 ^ 2)
    match price_series with
    | x0 :: x1 :: rest => x0 :: x1 :: ssLoop c1 c2 c3 rest x1 x1 x0
    | l => l

/-- Running maximum of absolute values, seeded with 0: since every `|x|` is
nonnegative this equals `np.max(np.abs(lp_arr))` on a nonempty array. -/
def maxAbs (l : List ℚ) : ℚ :=
  l.foldl (fun m x => max m |x|) 0

/-- Embeds the peak computation of `CycleDetector.calculate_cycles`
(`Cycle_detector.py` lines 118-121): `peak = 0.1`, then replaced by
`np.max(np.abs(lp_arr))` whenever that maximum exceeds 0.1. -/
def peakOf (lp : List ℚ) : ℚ :=
  let peak : ℚ := 0.1
  let current_peak := if lp.length > 0 then maxAbs lp else 0
  if current_peak > peak then current_peak else peak

/-- Embeds the normalization of `CycleDetector.calculate_cycles`
(`Cycle_detector.py` lines 123-126): `signal = lp_arr / peak` when the peak is
nonzero, else an all-zero array. -/
def signalOf (lp : List ℚ) : List ℚ :=
  if peakOf lp ≠ 0 then lp.map (fun x => x / peakOf lp)
  else lp.map (fun _ => 0)

/-- Embeds line 131 of `Cycle_detector.py`:
`xx = np.array([signal[self.length - i - 1] for i in range(self.length)])`.
The caller has checked `length ≤ signal.length`, so on that domain the
default value of `getD` is never used. -/
def xxOf (signal : List ℚ) (length : ℕ) : List ℚ :=
  (List.range length).map (fun i => signal.getD (length - i - 1) 0)

/-- Embeds lines 132 and 137-138 of `Cycle_detector.py`: coefficients start as
`np.zeros(length)`, then `x_bar = np.dot(xx, coefficients)` and
`coefficients += mu * (xx[-1] - x_bar) * xx`. -/
def coefficientsOf (mu : ℚ) (xx : List ℚ) (length : ℕ) : List ℚ :=
  let coefficients := List.replicate length (0 : ℚ)
  let x_bar := dot xx coefficients
  List.zipWith (fun c x => c + mu * (xx.getLast?.getD 0 - x_bar) * x) coefficients xx

/-- Embeds the power computation of one scanned period (`Cycle_detector.py`
lines 141-144): real and imaginary projections of the coefficient vector onto
`cos`/`sin` of `2*pi*k/period` for k = 1..length, then
`0.1 / ((1-real)^2 + imag^2)` with a zero-denominator guard. -/
def powerOf (T : Trig) (coefficients : List ℚ) (length : ℕ) (period : ℕ) : ℚ :=
  let real_part := dot coefficients
    ((List.range' 1 length).map (fun k => T.cos (2 * T.pi * (k : ℚ) / (period : ℚ))))
  let imag_part := dot coefficients
    ((List.range' 1 length).map (fun k => T.sin (2 * T.pi * (k : ℚ) / (period : ℚ))))
  let denom := (1 - real_part) ^ 2 + imag_part ^ 2
  if denom ≠ 0 then 0.1 / denom else 0

/-- Embeds the scan loop of `Cycle_detector.py` lines 140-149: fold over the
candidate periods carrying `(max_power, dominant_cycle)`; a period replaces
the current maximum only when its power is strictly greater. -/
def scanPeriods (powf : ℕ → ℚ) : List ℕ → ℚ × ℕ → ℚ × ℕ
  | [], acc => acc
  | p :: rest, (max_power, dominant_cycle) =>
    let power_val := powf p
    if power_val > max_power then scanPeriods powf rest (power_val, p)
    else scanPeriods powf rest (max_power, dominant_cycle)

/-- Error raised by `calculate_cycles` when the signal is shorter than the
required window (`Cycle_detector.py` lines 128-129); the payload carries the
configured length and the number of data points actually seen, mirroring the
f-string message. -/
inductive CycleError where
  | notEnoughData (length got : ℕ)
deriving DecidableEq, Repr

/-- Result record of `CycleDetector.calculate_cycles`
(`Cycle_detector.py` lines 151-156). -/
structure CycleResult where
  dominant_cycle : ℕ
  close_prices : List ℚ
  hp : List ℚ
  lp : List ℚ
deriving DecidableEq, Repr

/-- Candidate periods scanned by `calculate_cycles`:
`range(lower_bound, upper_bound + 1)`. -/
def periodsOf (lower_bound upper_bound : ℕ) : List ℕ :=
  List.range' lower_bound (upper_bound + 1 - lower_bound)

/-- Power function used by one call of `calculate_cycles`: the per-period
power computed from the adaptive coefficients obtained from the input. -/
def powerFn (T : Trig) (length : ℕ) (close_prices : List ℚ)
    (upper_bound lower_bound : ℕ) : ℕ → ℚ :=
  let hp := highpass_filter T close_prices (upper_bound : ℚ)
  let lp := super_smoother T hp (lower_bound : ℚ)
  let signal := signalOf lp
  let xx := xxOf signal length
  powerOf T (coefficientsOf (1 / (length : ℚ)) xx length) length

/-- Embeds `CycleDetector.calculate_cycles` (`Cycle_detector.py` lines
110-156) for a detector configured with the given bounds and length, on an
input that is already a flat numeric list (on such inputs `to_float_list` is
the identity).  `mu = 1/length` as set in `__init__`. -/
def calculate_cycles (T : Trig) (lower_bound upper_bound length : ℕ)
    (close_prices : List ℚ) : Except CycleError CycleResult :=
  let hp := highpass_filter T close_prices (upper_bound : ℚ)
  let lp := super_smoother T hp (lower_bound : ℚ)
  let signal := signalOf lp
  if signal.length < length then
    Except.error (CycleError.notEnoughData length signal.length)
  else
    let xx := xxOf signal length
    let coefficients := coefficientsOf (1 / (length : ℚ)) xx length
    let scanned := scanPeriods (powerOf T coefficients length)
      (periodsOf lower_bound upper_bound) (0, 0)
    Except.ok ⟨scanned.2, close_prices, hp, lp⟩

end CycleDet

namespace SSFile

/-!
Embedding of `src/Indicators/SuperSmoother_filter_function.py`.
-/

/-- Embeds `super_smoother` of `SuperSmoother_filter_function.py` (lines
16-33).  Unlike the `Cycle_detector.py` version there is no short-input
guard: `smooth_series[0] = price_series[0]` and
`smooth_series[1] = price_series[1]` raise an `IndexError` when the series
has fewer than 2 samples, modelled as `none`.  The recursion loop is the
same as the `Cycle_detector.py` one, so `CycleDet.ssLoop` is reused. -/
def super_smoother (T : Trig) (price_series : List ℚ) (period : ℚ) :
    Option (List ℚ) :=
  let a1 := T.exp (-1.414 * T.pi / period)
  let b1 := 2 * a1 * T.cos (1.414 * 180 / period)
  let c1 := 1 - b1 + a1 * a1
  let c2 := b1
  let c3 := -(a1 * a1)
  match price_series with
  | x0 :: x1 :: rest => some (x0 :: x1 :: CycleDet.ssLoop c1 c2 c3 rest x1 x1 x0)
  | _ => none

end SSFile

namespace HPFile

/-!
Embedding of `src/Indicators/High_pass_filter_function.py`.
-/

/-- Embeds `highpass_filter` of `High_pass_filter_function.py` (lines 30-53):
`highpass_series = [0] * len(price_series)` and the recursion runs from index
2, so a series shorter than 2 comes back as zeros of the same length.  The
loop body is the same as the `Cycle_detector.py` one, so `CycleDet.hpLoop` is
reused. -/
def highpass_filter (T : Trig) (price_series : List ℚ) (period : ℚ) : List ℚ :=
  let a1 := T.exp (-1.414 * T.pi / period)
  let b1 := 2 * a1 * T.cos (1.414 * 180 / period)
  let c1 := (1 + b1) / 4
  let c2 := b1
  let c3 := -(a1 * a1)
  match price_series with
  | x0 :: x1 :: rest => 0 :: 0 :: CycleDet.hpLoop c1 c2 c3 rest x1 x0 0 0
  | l => List.replicate l.length 0

end HPFile

namespace Griffiths

/-!
Embedding of `src/Indicators/Griffiths_predictor.py`.  The predictor imports
`highpass_filter` from `High_pass_filter_function.py` and `super_smoother`
from `SuperSmoother_filter_function.py`.
-/

/-- Python semantics of subscripting a scalar float, as happens at
`Griffiths_predictor.py` line 56 (`signal[-1]` where
`signal = lp[t] / peak` is a scalar): a `float` is not subscriptable, so the
expression raises a `TypeError`; modelled as `none`. -/
def scalarSubscriptLast (_q : ℚ) : Option ℚ := none

/-- One shift-and-insert on the fixed-size history buffer:
`xx[:-1] = xx[1:]` followed by `xx[-1] = v`. -/
def shiftInsert (xx : List ℚ) (v : ℚ) : List ℚ :=
  xx.drop 1 ++ [v]

/-- Per-sample loop of `griffiths_predictor` (`Griffiths_predictor.py` lines
50-62), iterating over `lp[t]` for `t` from `length` to the end.  State:
history `xx`, weights `coef`, running `peak`, the `predictions` array and the
current index `t`.  Order follows the source: update the peak from `|lp[t]|`,
form the scalar `signal`, shift `xx` and write `signal[-1]` into its last
slot (the scalar subscript fails), predict with the shifted `xx`, store the
prediction, then update `coef` by `mu * error * xx`. -/
def gLoop (mu : ℚ) : List ℚ → List ℚ → List ℚ → ℚ → List ℚ → ℕ →
    Option (List ℚ × List ℚ × ℚ × List ℚ)
  | [], xx, coef, peak, predictions, _ => some (xx, coef, peak, predictions)
  | lpt :: rest, xx, coef, peak, predictions, t =>
    let peak' := if |lpt| > peak then |lpt| else peak
    let signal := if peak' ≠ 0 then lpt / peak' else 0
    match scalarSubscriptLast signal with
    | none => none
    | some s =>
      let xx' := shiftInsert xx s
      let prediction := dot xx' coef
      let predictions' := predictions.set t prediction
      let error := signal - prediction
      let coef' := List.zipWith (fun c x => c + mu * error * x) coef xx'
      gLoop mu rest xx' coef' peak' predictions' (t + 1)

/-- Forward-extrapolation loop of `griffiths_predictor`
(`Griffiths_predictor.py` lines 64-69): repeatedly predict from the current
history, append the prediction, and feed it back into the history buffer. -/
def gFuture (coef : List ℚ) : List ℚ → ℕ → List ℚ
  | _, 0 => []
  | xx, n + 1 =>
    let future_signal := dot xx coef
    future_signal :: gFuture coef (shiftInsert xx future_signal) n

/-- Embeds `griffiths_predictor` (`Griffiths_predictor.py` lines 40-71):
`mu = 1/length`, highpass then SuperSmoother, history and weights starting at
zero, `peak = 0.1`, `predictions = np.zeros_like(close_prices)`, the
per-sample loop from `t = length`, then `bars_fwd` forward steps. -/
def griffiths_predictor (T : Trig) (close_prices : List ℚ) (length : ℕ)
    (lower_bound upper_bound : ℚ) (bars_fwd : ℕ) :
    Option (List ℚ × List ℚ) :=
  let mu := 1 / (length : ℚ)
  let hp := HPFile.highpass_filter T close_prices upper_bound
  match SSFile.super_smoother T hp lower_bound with
  | none => none
  | some lp =>
    let xx := List.replicate length (0 : ℚ)
    let coef := List.replicate length (0 : ℚ)
    let peak : ℚ := 0.1
    let predictions := List.replicate close_prices.length (0 : ℚ)
    match gLoop mu (lp.drop length) xx coef peak predictions length with
    | none => none
    | some (xx', coef', _, predictions') =>
      some (predictions', gFuture coef' xx' bars_fwd)

end Griffiths

namespace USIViz

/-!
Embedding of the USI functions of `src/Indicators/USI_Visualization.py`.
-/

/-- Embeds `np.diff(prices, prepend=prices[0])`: index 0 yields
`prices[0] - prices[0] = 0`, index i yields `prices[i] - prices[i-1]`. -/
def diffPrepend (prices : List ℚ) : List ℚ :=
  match prices with
  | [] => []
  | x :: _ => List.zipWith (fun a b => a - b) prices (x :: prices)

/-- Embeds `calculate_su_sd` of `USI_Visualization.py` (lines 28-41): raises
on an empty series, else `su = max(diff, 0)` and `sd = max(-diff, 0)`
elementwise over the prepended difference. -/
def calculate_su_sd (prices : List ℚ) : Except String (List ℚ × List ℚ) :=
  if prices.length = 0 then
    Except.error "Price data is empty. Ensure stock data is fetched correctly."
  else
    Except.ok ((diffPrepend prices).map (fun d => max d 0),
               (diffPrepend prices).map (fun d => max (-d) 0))

/-- Loop of `ultimate_smoother` (`USI_Visualization.py` lines 51-54, running
from index 3): state carries the previous two inputs `dm1, dm2` and the
previous two outputs `sm1, sm2`; each step emits
`(1-c1)*d[i] + (2c1-c2)*d[i-1] - (c1+c3)*d[i-2] + c2*s[i-1] + c3*s[i-2]`. -/
def usLoop (c1 c2 c3 : ℚ) : List ℚ → ℚ → ℚ → ℚ → ℚ → List ℚ
  | [], _, _, _, _ => []
  | di :: rest, dm1, dm2, sm1, sm2 =>
    let s := (1 - c1) * di + (2 * c1 - c2) * dm1 - (c1 + c3) * dm2
      + c2 * sm1 + c3 * sm2
    s :: usLoop c1 c2 c3 rest di dm1 s sm1

/-- Embeds `ultimate_smoother` of `USI_Visualization.py` (lines 43-55):
indices below 3 pass through unfiltered, the hybrid recursion runs from
index 3. -/
def ultimate_smoother (T : Trig) (data : List ℚ) (period : ℚ) : List ℚ :=
  let a1 := T.exp (-1.414 * T.pi / period)
  let b1 := 2 * a1 * T.cos (1.414 * 180 / period)
  let c2 := b1
  let c3 := -(a1 * a1)
  let c1 := (1 + c2 - c3) / 4
  match data with
  | d0 :: d1 :: d2 :: rest => d0 :: d1 :: d2 :: usLoop c1 c2 c3 rest d2 d1 d2 d1
  | l => l

/-- Smoothed upward strength used by `calculate_usi`. -/
def usuOf (T : Trig) (prices : List ℚ) (period : ℚ) : List ℚ :=
  ultimate_smoother T ((diffPrepend prices).map (fun d => max d 0)) period

/-- Smoothed downward strength used by `calculate_usi`. -/
def usdOf (T : Trig) (prices : List ℚ) (period : ℚ) : List ℚ :=
  ultimate_smoother T ((diffPrepend prices).map (fun d => max (-d) 0)) period

/-- Embeds `calculate_usi` of `USI_Visualization.py` (lines 57-67): after
`calculate_su_sd` and the two smoothers, `usi` starts as zeros of length
`len(prices)` and the ratio `(usu-usd)/(usu+usd)` is written exactly where
`usu + usd > 0` and `usu > 0.01` and `usd > 0.01`.  Since `usu` and `usd`
both have length `len(prices)`, the masked assignment equals this elementwise
zip. -/
def calculate_usi (T : Trig) (prices : List ℚ) (period : ℚ) :
    Except String (List ℚ) :=
  match calculate_su_sd prices with
  | Except.error e => Except.error e
  | Except.ok _ =>
    let usu := usuOf T prices period
    let usd := usdOf T prices period
    Except.ok (List.zipWith
      (fun u d => if u + d > 0 ∧ u > 0.01 ∧ d > 0.01 then (u - d) / (u + d) else 0)
      usu usd)

end USIViz

namespace USmooth

/-!
Embedding of `calculate_su_sd` of `src/Indicators/Apply_Ultimate_Smoother.py`
(lines 28-41); `src/Indicators/Validate_USI_Against_RSI.py` lines 33-42 are
identical.
-/

/-- Loop of `calculate_su_sd` over indices i ≥ 1, carrying the previous
price: `su[i] = prices[i] - prices[i-1]` when the price rose,
`sd[i] = prices[i-1] - prices[i]` when it fell, both 0 otherwise. -/
def suSdLoop : List ℚ → ℚ → List (ℚ × ℚ)
  | [], _ => []
  | p :: rest, prev =>
    (if p > prev then p - prev else 0, if p < prev then prev - p else 0)
      :: suSdLoop rest p

/-- Embeds `calculate_su_sd` of `Apply_Ultimate_Smoother.py`: `su` and `sd`
start as zeros of the series length and the loop writes indices 1 and up, so
index 0 stays 0. -/
def calculate_su_sd (prices : List ℚ) : List ℚ × List ℚ :=
  match prices with
  | [] => ([], [])
  | p0 :: rest =>
    let pairs := suSdLoop rest p0
    (0 :: pairs.map Prod.fst, 0 :: pairs.map Prod.snd)

end USmooth

namespace PyConv

/-!
Embedding of `to_float_list` of `src/Indicators/Cycle_detector.py` (lines
9-38) on plain-list inputs, and the wrapped `highpass_filter` entry point.
-/

/-- Element of a Python list handed to `to_float_list`: either a numeric
scalar or a nested sequence (list / ndarray row). -/
inductive PyVal where
  | num (q : ℚ)
  | arr (l : List PyVal)

/-- True when the element is a nested sequence, as tested by
`isinstance(x, (list, np.ndarray))`. -/
def PyVal.isArr : PyVal → Bool
  | .num _ => false
  | .arr _ => true

/-- Numeric value of a scalar element, as produced by `float(x)`; the nested
branch is unreachable behind the multi-dimensionality check. -/
def PyVal.toFloat : PyVal → ℚ
  | .num q => q
  | .arr _ => 0

/-- Embeds `to_float_list` of `Cycle_detector.py` on a plain-list input: the
DataFrame / Series / ndarray branches do not apply, the input is already a
list, so the only check left is line 32: any nested element is a fatal
multi-dimensionality error; otherwise every element is converted by
`float`. -/
def to_float_list (data : List PyVal) : Except String (List ℚ) :=
  if data.any PyVal.isArr then
    Except.error "Data appears to be multi-dimensional (list of lists). Expected 1D list of numeric values."
  else
    Except.ok (data.map PyVal.toFloat)

/-- Embeds the `highpass_filter` entry point of `Cycle_detector.py` (lines
40-63) on a raw Python list: `to_float_list` first, then the filter body
(shared with `CycleDet.highpass_filter`, whose input is the converted
list). -/
def highpass_filterP (T : Trig) (data : List PyVal) (period : ℚ) :
    Except String (List ℚ) :=
  match to_float_list data with
  | Except.error e => Except.error e
  | Except.ok price_series => Except.ok (CycleDet.highpass_filter T price_series period)

end PyConv

/-! ### Helper lemmas -/

lemma dot_replicate_zero_left (l : List ℚ) : ∀ n, dot (List.replicate n 0) l = 0 := by
  induction l with
  | nil => intro n; cases n <;> simp [dot]
  | cons x xs ih =>
    intro n
    cases n with
    | zero => simp [dot]
    | succ m =>
      have := ih m
      simp only [dot, List.replicate_succ, List.zipWith_cons_cons, List.sum_cons] at *
      simp [this]

lemma foldl_max_abs_init (l : List ℚ) : ∀ a : ℚ, a ≤ l.foldl (fun m x => max m |x|) a := by
  induction l with
  | nil => intro a; exact le_refl a
  | cons y ys ih =>
    intro a
    simp only [List.foldl_cons]
    exact le_trans (le_max_left a |y|) (ih (max a |y|))

lemma foldl_max_abs_mem (l : List ℚ) :
    ∀ (a x : ℚ), x ∈ l → |x| ≤ l.foldl (fun m x => max m |x|) a := by
  induction l with
  | nil => intro a x hx; simp at hx
  | cons y ys ih =>
    intro a x hx
    simp only [List.foldl_cons]
    rcases List.mem_cons.1 hx with rfl | hmem
    · exact le_trans (le_max_right a |x|) (foldl_max_abs_init ys (max a |x|))
    · exact ih (max a |y|) x hmem

namespace CycleDet

lemma hpLoop_length (c1 c2 c3 : ℚ) :
    ∀ (l : List ℚ) (a b u v : ℚ), (hpLoop c1 c2 c3 l a b u v).length = l.length := by
  intro l
  induction l with
  | nil => intro a b u v; rfl
  | cons x xs ih => intro a b u v; simp [hpLoop, ih]

lemma ssLoop_length (c1 c2 c3 : ℚ) :
    ∀ (l : List ℚ) (a u v : ℚ), (ssLoop c1 c2 c3 l a u v).length = l.length := by
  intro l
  induction l with
  | nil => intro a u v; rfl
  | cons x xs ih => intro a u v; simp [ssLoop, ih]

lemma highpass_filter_length (T : Trig) (ps : List ℚ) (period : ℚ) :
    (highpass_filter T ps period).length = ps.length := by
  unfold highpass_filter
  by_cases h : ps.length < 3
  · simp [h]
  · match ps with
    | [] => simp at h
    | [x] => simp at h
    | [x, y] => simp at h
    | x0 :: x1 :: z :: rest =>
      simp only [h, if_false]
      simp [hpLoop_length]

lemma super_smoother_length (T : Trig) (ps : List ℚ) (period : ℚ) :
    (super_smoother T ps period).length = ps.length := by
  unfold super_smoother
  by_cases h : ps.length < 2
  · simp [h]
  · match ps with
    | [] => simp at h
    | [x] => simp at h
    | x0 :: x1 :: rest =>
      simp only [h, if_false]
      simp [ssLoop_length]

lemma signalOf_length (lp : List ℚ) : (signalOf lp).length = lp.length := by
  unfold signalOf
  by_cases h : peakOf lp ≠ 0 <;> simp [h]

lemma hpLoop_zero (c1 c2 c3 : ℚ) :
    ∀ n, hpLoop c1 c2 c3 (List.replicate n 0) 0 0 0 0 = List.replicate n 0 := by
  intro n
  induction n with
  | zero => rfl
  | succ m ih =>
    simp only [List.replicate_succ, hpLoop]
    have hy : c1 * ((0 : ℚ) - 2 * 0 + 0) + c2 * 0 + c3 * 0 = 0 := by ring
    rw [hy, ih]

lemma ssLoop_zero (c1 c2 c3 : ℚ) :
    ∀ n, ssLoop c1 c2 c3 (List.replicate n 0) 0 0 0 = List.replicate n 0 := by
  intro n
  induction n with
  | zero => rfl
  | succ m ih =>
    simp only [List.replicate_succ, ssLoop]
    have hy : c1 * ((0 : ℚ) + 0) / 2 + c2 * 0 + c3 * 0 = 0 := by ring
    rw [hy, ih]

lemma highpass_filter_zero (T : Trig) (period : ℚ) (n : ℕ) :
    highpass_filter T (List.replicate n 0) period = List.replicate n 0 := by
  unfold highpass_filter
  by_cases h : n < 3
  · simp [h]
  · obtain ⟨m, rfl⟩ : ∃ m, n = m + 2 := ⟨n - 2, by omega⟩
    have hlen : (List.replicate (m + 2) (0 : ℚ)).length < 3 ↔ False := by
      simp; omega
    simp only [List.replicate_succ, hpLoop_zero, List.length_cons, List.length_replicate]
    have : ¬ (m + 1 + 1 < 3) := by omega
    simp [this, hpLoop_zero]

lemma super_smoother_zero (T : Trig) (period : ℚ) (n : ℕ) :
    super_smoother T (List.replicate n 0) period = List.replicate n 0 := by
  unfold super_smoother
  by_cases h : n < 2
  · simp [h]
  · obtain ⟨m, rfl⟩ : ∃ m, n = m + 2 := ⟨n - 2, by omega⟩
    simp only [List.replicate_succ, List.length_cons, List.length_replicate]
    have : ¬ (m + 1 + 1 < 2) := by omega
    simp [this, ssLoop_zero]

lemma maxAbs_replicate_zero : ∀ n, maxAbs (List.replicate n (0 : ℚ)) = 0 := by
  intro n
  induction n with
  | zero => rfl
  | succ m ih =>
    simp only [List.replicate_succ, maxAbs, List.foldl_cons] at *
    simpa using ih

lemma peakOf_replicate_zero (n : ℕ) : peakOf (List.replicate n (0 : ℚ)) = 0.1 := by
  unfold peakOf
  by_cases h : n > 0
  · simp only [List.length_replicate, h, if_true, maxAbs_replicate_zero]
    norm_num
  · simp only [List.length_replicate]
    have : ¬ (0 < n) := h
    simp [this]
    norm_num

lemma signalOf_replicate_zero (n : ℕ) :
    signalOf (List.replicate n (0 : ℚ)) = List.replicate n 0 := by
  unfold signalOf
  rw [peakOf_replicate_zero]
  norm_num

lemma xxOf_replicate_zero (n len : ℕ) :
    xxOf (List.replicate n (0 : ℚ)) len = List.replicate len 0 := by
  unfold xxOf
  apply List.eq_replicate_iff.2
  constructor
  · simp
  · intro b hb
    simp only [List.mem_map, List.mem_range] at hb
    obtain ⟨i, _, rfl⟩ := hb
    rcases lt_or_le (len - i - 1) n with h | h
    · rw [List.getD_eq_getElem _ _ (by simpa using h)]
      simp
    · rw [List.getD_eq_default]
      simpa using h

lemma coefficientsOf_replicate_zero (mu : ℚ) (len : ℕ) :
    coefficientsOf mu (List.replicate len 0) len = List.replicate len 0 := by
  unfold coefficientsOf
  apply List.eq_replicate_iff.2
  constructor
  · simp
  · intro b hb
    rw [List.zipWith_replicate'] at hb
    simp only [List.mem_replicate] at hb
    rw [hb.2]
    ring_nf

lemma powerOf_replicate_zero (T : Trig) (len p : ℕ) :
    powerOf T (List.replicate len 0) len p = 0.1 := by
  unfold powerOf
  rw [dot_replicate_zero_left, dot_replicate_zero_left]
  norm_num

lemma scanPeriods_no_update (powf : ℕ → ℚ) :
    ∀ (l : List ℕ) (mp : ℚ) (d : ℕ), (∀ q ∈ l, powf q ≤ mp) →
      scanPeriods powf l (mp, d) = (mp, d) := by
  intro l
  induction l with
  | nil => intro mp d _; rfl
  | cons p rest ih =>
    intro mp d h
    have hp : powf p ≤ mp := h p (by simp)
    have : ¬ (powf p > mp) := not_lt.2 hp
    simp only [scanPeriods, this, if_false]
    exact ih mp d (fun q hq => h q (by simp [hq]))

lemma scanPeriods_invar (powf : ℕ → ℚ) :
    ∀ (l : List ℕ), l.Pairwise (· < ·) → ∀ (mp : ℚ) (d : ℕ) (M : ℚ) (D : ℕ),
      scanPeriods powf l (mp, d) = (M, D) →
      (mp ≤ M ∧ ∀ p ∈ l, powf p ≤ M) ∧
      ((M = mp ∧ D = d) ∨
        (D ∈ l ∧ M = powf D ∧ mp < M ∧ ∀ q ∈ l, q < D → powf q < M)) := by
  intro l
  induction l with
  | nil =>
    intro _ mp d M D h
    simp only [scanPeriods, Prod.mk.injEq] at h
    obtain ⟨rfl, rfl⟩ := h
    exact ⟨⟨le_refl _, by simp⟩, Or.inl ⟨rfl, rfl⟩⟩
  | cons p rest ih =>
    intro hpw mp d M D h
    have hhead : ∀ q ∈ rest, p < q := (List.pairwise_cons.1 hpw).1
    have hrest : rest.Pairwise (· < ·) := (List.pairwise_cons.1 hpw).2
    simp only [scanPeriods] at h
    by_cases hgt : powf p > mp
    · rw [if_pos hgt] at h
      obtain ⟨⟨hmp, hall⟩, hcase⟩ := ih hrest (powf p) p M D h
      refine ⟨⟨le_of_lt (lt_of_lt_of_le hgt hmp), ?_⟩, ?_⟩
      · intro q hq
        rcases List.mem_cons.1 hq with rfl | hq'
        · exact hmp
        · exact hall q hq'
      · rcases hcase with ⟨hM, hD⟩ | ⟨hD, hM, hlt, Hq⟩
        · refine Or.inr ⟨by simp [hD], by rw [hD, hM], by rw [hM]; exact hgt, ?_⟩
          intro q hq hqD
          rcases List.mem_cons.1 hq with rfl | hq'
          · omega
          · exact absurd hqD (by have := hhead q hq'; omega)
        · refine Or.inr ⟨by simp [hD], hM, lt_trans hgt hlt, ?_⟩
          intro q hq hqD
          rcases List.mem_cons.1 hq with rfl | hq'
          · exact hlt
          · exact Hq q hq' hqD
    · rw [if_neg hgt] at h
      have hple : powf p ≤ mp := not_lt.1 hgt
      obtain ⟨⟨hmp, hall⟩, hcase⟩ := ih hrest mp d M D h
      refine ⟨⟨hmp, ?_⟩, ?_⟩
      · intro q hq
        rcases List.mem_cons.1 hq with rfl | hq'
        · exact le_trans hple hmp
        · exact hall q hq'
      · rcases hcase with ⟨hM, hD⟩ | ⟨hD, hM, hlt, Hq⟩
        · exact Or.inl ⟨hM, hD⟩
        · refine Or.inr ⟨by simp [hD], hM, hlt, ?_⟩
          intro q hq hqD
          rcases List.mem_cons.1 hq with rfl | hq'
          · exact lt_of_le_of_lt hple hlt
          · exact Hq q hq' hqD

lemma signal_pipeline_length (T : Trig) (lb ub : ℚ) (prices : List ℚ) :
    (signalOf (super_smoother T (highpass_filter T prices ub) lb)).length =
      prices.length := by
  rw [signalOf_length, super_smoother_length, highpass_filter_length]

lemma calculate_cycles_zero (T : Trig) (lb ub len n : ℕ)
    (h1 : lb ≤ ub) (h2 : len ≤ n) :
    calculate_cycles T lb ub len (List.replicate n 0) =
      Except.ok ⟨lb, List.replicate n 0, List.replicate n 0, List.replicate n 0⟩ := by
  unfold calculate_cycles
  simp only [highpass_filter_zero, super_smoother_zero, signalOf_replicate_zero,
    xxOf_replicate_zero, coefficientsOf_replicate_zero, List.length_replicate]
  rw [if_neg (by omega : ¬ n < len)]
  have hper : periodsOf lb ub = lb :: List.range' (lb + 1) (ub - lb) := by
    unfold periodsOf
    have he : ub + 1 - lb = (ub - lb) + 1 := by omega
    rw [he, List.range'_succ]
  rw [hper]
  simp only [scanPeriods, powerOf_replicate_zero]
  rw [if_pos (by norm_num : (0.1 : ℚ) > 0)]
  rw [scanPeriods_no_update (powerOf T (List.replicate len 0) len) _ 0.1 lb
    (fun q _ => by rw [powerOf_replicate_zero])]

lemma peakOf_ge (lp : List ℚ) : (0.1 : ℚ) ≤ peakOf lp := by
  unfold peakOf
  by_cases h : (if lp.length > 0 then maxAbs lp else 0) > 0.1
  · rw [if_pos h]; exact le_of_lt h
  · rw [if_neg h]

lemma peakOf_ge_abs (lp : List ℚ) : ∀ x ∈ lp, |x| ≤ peakOf lp := by
  intro x hx
  have hpos : lp.length > 0 := List.length_pos.2 (List.ne_nil_of_mem hx)
  unfold peakOf
  rw [if_pos hpos]
  have hle : |x| ≤ maxAbs lp := foldl_max_abs_mem lp 0 x hx
  by_cases h : maxAbs lp > 0.1
  · rw [if_pos h]; exact hle
  · rw [if_neg h]; exact le_trans hle (not_lt.1 h)

end CycleDet

namespace HPFile

lemma hpfile_highpass_zero (T : Trig) (period : ℚ) (n : ℕ) :
    highpass_filter T (List.replicate n 0) period = List.replicate n 0 := by
  cases n with
  | zero => rfl
  | succ m =>
    cases m with
    | zero => rfl
    | succ k =>
      show highpass_filter T (0 :: 0 :: List.replicate k 0) period = 0 :: 0 :: List.replicate k 0
      simp only [highpass_filter]
      rw [CycleDet.hpLoop_zero]

end HPFile

namespace SSFile

lemma ssfile_super_zero (T : Trig) (period : ℚ) (m : ℕ) :
    super_smoother T (List.replicate (m + 2) 0) period =
      some (List.replicate (m + 2) 0) := by
  show super_smoother T (0 :: 0 :: List.replicate m 0) period = some (0 :: 0 :: List.replicate m 0)
  simp only [super_smoother]
  rw [CycleDet.ssLoop_zero]

end SSFile

namespace Griffiths

lemma gLoop_cons_none (mu : ℚ) (lpt : ℚ) (rest xx coef : List ℚ) (peak : ℚ)
    (predictions : List ℚ) (t : ℕ) :
    gLoop mu (lpt :: rest) xx coef peak predictions t = none := rfl

end Griffiths

/-- C2: the spec says each per-sample iteration of the AdaptivePredictor
shifts `xx` left, inserts the normalized signal `lp[t]/peak` at the end,
stores `dot(xx, coef)` into `predictions[t]` and updates `coef` by
`mu*error*xx`.  In the code the insertion is `xx[-1] = signal[-1]` where
`signal` is a scalar float, so the very first iteration of the loop raises a
`TypeError` instead of performing the described update: whenever the lowpass
series is longer than `length`, `griffiths_predictor` fails. -/
theorem claim_C2_griffiths_loop_raises (T : Trig) (prices : List ℚ) (len : ℕ)
    (lb ub : ℚ) (bf : ℕ) (lp : List ℚ)
    (hlp : SSFile.super_smoother T (HPFile.highpass_filter T prices ub) lb = some lp)
    (h : len < lp.length) :
    Griffiths.griffiths_predictor T prices len lb ub bf = none := by
  unfold Griffiths.griffiths_predictor
  simp only [hlp]
  obtain ⟨x, rest, hx⟩ : ∃ x rest, lp.drop len = x :: rest := by
    cases hcons : lp.drop len with
    | nil =>
      exfalso
      have : (lp.drop len).length = lp.length - len := List.length_drop len lp
      rw [hcons] at this
      simp at this
      omega
    | cons a l => exact ⟨a, l, rfl⟩
  rw [hx, Griffiths.gLoop_cons_none]

/-- Witness for C2 at the failing input: nineteen zero prices with the default
parameters make the lowpass series 19 samples long, so the per-sample loop
runs and the scalar subscript fails. -/
theorem claim_C2_griffiths_loop_raises_witness :
    Griffiths.griffiths_predictor Trig0 (List.replicate 19 0) 18 18 40 2 = none := by
  apply claim_C2_griffiths_loop_raises Trig0 (List.replicate 19 0) 18 18 40 2
    (List.replicate 19 0)
  · rw [HPFile.hpfile_highpass_zero]
    exact SSFile.ssfile_super_zero Trig0 18 17
  · simp

/-- C1 (amended): an all-zero price series of sufficient length keeps every
intermediate series (hp, lp, normalized signal) identically zero, but the
dominant cycle is `lower_bound`, not 0: the zero coefficient vector gives
every scanned period the same power `0.1 > 0`, so the first scanned period
wins. -/
theorem claim_C1_zero_pipeline (T : Trig) (lb ub len : ℕ) (prices : List ℚ)
    (h0 : ∀ x ∈ prices, x = 0) (h1 : lb ≤ ub) (h2 : len ≤ prices.length) :
    CycleDet.calculate_cycles T lb ub len prices =
      Except.ok ⟨lb, prices, List.replicate prices.length 0,
        List.replicate prices.length 0⟩ ∧
    CycleDet.signalOf (CycleDet.super_smoother T
        (CycleDet.highpass_filter T prices (ub : ℚ)) (lb : ℚ)) =
      List.replicate prices.length 0 := by
  obtain ⟨n, rfl⟩ : ∃ n, prices = List.replicate n 0 :=
    ⟨prices.length, List.eq_replicate_length.2 h0⟩
  simp only [List.length_replicate] at h2 ⊢
  refine ⟨CycleDet.calculate_cycles_zero T lb ub len n h1 h2, ?_⟩
  rw [CycleDet.highpass_filter_zero, CycleDet.super_smoother_zero,
    CycleDet.signalOf_replicate_zero]

/-- Witness for C1 (amended) at 40 zero prices with the default detector
configuration. -/
theorem claim_C1_zero_pipeline_witness :
    CycleDet.calculate_cycles Trig0 18 40 40 (List.replicate 40 0) =
      Except.ok ⟨18, List.replicate 40 0, List.replicate 40 0,
        List.replicate 40 0⟩ ∧
    CycleDet.signalOf (CycleDet.super_smoother Trig0
        (CycleDet.highpass_filter Trig0 (List.replicate 40 0) (40 : ℚ)) (18 : ℚ)) =
      List.replicate 40 0 := by
  have := claim_C1_zero_pipeline Trig0 18 40 40 (List.replicate 40 0)
    (by simp) (by norm_num) (by simp)
  simpa using this

/-- Counterexample for C1 as stated: on 40 zero prices with the default
configuration the returned dominant cycle is 18 (the lower bound), not 0. -/
theorem claim_C1_counterexample :
    CycleDet.calculate_cycles Trig0 18 40 40 (List.replicate 40 0) =
      Except.ok ⟨18, List.replicate 40 0, List.replicate 40 0,
        List.replicate 40 0⟩ ∧
    (18 : ℕ) ≠ 0 :=
  ⟨CycleDet.calculate_cycles_zero Trig0 18 40 40 40 (by norm_num) (by norm_num),
    by norm_num⟩

namespace CycleDet

/-- Modelled from the spec: "take the most recent `length` samples in
reverse chronological order" — the last `length` samples of the signal,
newest first.  Stated for comparison with `xxOf`, the window the code
actually builds. -/
def mostRecentRev (signal : List ℚ) (length : ℕ) : List ℚ :=
  (signal.drop (signal.length - length)).reverse

end CycleDet

/-- C3 (amended): with at least `length` signal samples,
`CycleDetector.calculate_cycles` builds its adaptive-filter input vector by
the formula `xx[i] = signal[length−1−i]`, i.e. the FIRST (earliest) `length`
samples in reverse order; this coincides with the most recent `length`
samples only when the signal has exactly `length` samples. -/
theorem claim_C3_xx_window (signal : List ℚ) (len : ℕ) (h : len ≤ signal.length) :
    (∀ i, i < len →
      (CycleDet.xxOf signal len).getD i 0 = signal.getD (len - 1 - i) 0) ∧
    CycleDet.xxOf signal len = (signal.take len).reverse ∧
    (signal.length = len →
      CycleDet.xxOf signal len = CycleDet.mostRecentRev signal len) := by
  have hlen : (CycleDet.xxOf signal len).length = len := by
    simp [CycleDet.xxOf]
  have htake : ((signal.take len).reverse).length = len := by
    simp; omega
  have hmain : CycleDet.xxOf signal len = (signal.take len).reverse := by
    apply List.ext_getElem (by rw [hlen, htake])
    intro i h1 h2
    rw [hlen] at h1
    have hidx : len - i - 1 < signal.length := by omega
    have hxx : (CycleDet.xxOf signal len)[i] = signal.getD (len - i - 1) 0 := by
      simp [CycleDet.xxOf]
    rw [hxx, List.getD_eq_getElem _ _ hidx]
    rw [List.getElem_reverse]
    rw [List.getElem_take]
    congr 1
    simp
    omega
  refine ⟨?_, hmain, ?_⟩
  · intro i hi
    rw [List.getD_eq_getElem _ _ (by rw [hlen]; exact hi)]
    have hxx : (CycleDet.xxOf signal len)[i] = signal.getD (len - i - 1) 0 := by
      simp [CycleDet.xxOf]
    rw [hxx]
    congr 1
    omega
  · intro heq
    rw [hmain]
    unfold CycleDet.mostRecentRev
    rw [heq, Nat.sub_self, List.drop_zero, ← heq, List.take_length]

/-- Witness for C3 (amended) at a concrete two-sample signal. -/
theorem claim_C3_xx_window_witness :
    CycleDet.xxOf [5, 7] 2 = (([5, 7] : List ℚ).take 2).reverse :=
  (claim_C3_xx_window [5, 7] 2 (by norm_num)).2.1

/-- Counterexample for C3 as stated: with a 3-sample signal and `length = 2`
the code's window `xx = [signal[1], signal[0]]` is not the most recent two
samples in reverse chronological order (`[signal[2], signal[1]]`). -/
theorem claim_C3_counterexample :
    CycleDet.xxOf [1, 2, 3] 2 ≠ CycleDet.mostRecentRev [1, 2, 3] 2 := by
  decide

/-- C4: whenever `calculate_cycles` returns, the dominant cycle lies in
`{0} ∪ [lower_bound, upper_bound]`; it stays 0 when no scanned period's
power exceeds the initial `max_power = 0`, and otherwise it is the
first-seen argmax: its power strictly exceeds the power of every
earlier-scanned (smaller) period and is at least the power of every scanned
period. -/
theorem claim_C4_dominant_cycle (T : Trig) (lb ub len : ℕ) (prices : List ℚ)
    (res : CycleDet.CycleResult)
    (h : CycleDet.calculate_cycles T lb ub len prices = Except.ok res) :
    (res.dominant_cycle = 0 ∨ (lb ≤ res.dominant_cycle ∧ res.dominant_cycle ≤ ub)) ∧
    ((∀ p ∈ CycleDet.periodsOf lb ub, CycleDet.powerFn T len prices ub lb p ≤ 0) →
      res.dominant_cycle = 0) ∧
    (res.dominant_cycle ≠ 0 →
      res.dominant_cycle ∈ CycleDet.periodsOf lb ub ∧
      0 < CycleDet.powerFn T len prices ub lb res.dominant_cycle ∧
      (∀ q ∈ CycleDet.periodsOf lb ub, q < res.dominant_cycle →
        CycleDet.powerFn T len prices ub lb q <
          CycleDet.powerFn T len prices ub lb res.dominant_cycle) ∧
      (∀ q ∈ CycleDet.periodsOf lb ub,
        CycleDet.powerFn T len prices ub lb q ≤
          CycleDet.powerFn T len prices ub lb res.dominant_cycle)) := by
  simp only [CycleDet.calculate_cycles] at h
  by_cases hguard :
      (CycleDet.signalOf (CycleDet.super_smoother T
        (CycleDet.highpass_filter T prices (ub : ℚ)) (lb : ℚ))).length < len
  · rw [if_pos hguard] at h
    exact absurd h (by simp)
  · rw [if_neg hguard] at h
    rcases hscan : CycleDet.scanPeriods (CycleDet.powerFn T len prices ub lb)
      (CycleDet.periodsOf lb ub) (0, 0) with ⟨M, D⟩
    have hres : res.dominant_cycle = D := by
      have hres' : res = ⟨(CycleDet.scanPeriods (CycleDet.powerFn T len prices ub lb)
          (CycleDet.periodsOf lb ub) (0, 0)).2, prices,
          CycleDet.highpass_filter T prices (ub : ℚ),
          CycleDet.super_smoother T (CycleDet.highpass_filter T prices (ub : ℚ)) (lb : ℚ)⟩ := by
        cases h
        rfl
      rw [hres', hscan]
    have hpw : (CycleDet.periodsOf lb ub).Pairwise (· < ·) :=
      List.pairwise_lt_range' lb (ub + 1 - lb)
    obtain ⟨⟨hM0, hall⟩, hcase⟩ :=
      CycleDet.scanPeriods_invar (CycleDet.powerFn T len prices ub lb)
        (CycleDet.periodsOf lb ub) hpw 0 0 M D hscan
    rw [hres]
    have hmemrange : ∀ q ∈ CycleDet.periodsOf lb ub, lb ≤ q ∧ q ≤ ub := by
      intro q hq
      rw [CycleDet.periodsOf, List.mem_range'] at hq
      obtain ⟨i, hi, rfl⟩ := hq
      omega
    refine ⟨?_, ?_, ?_⟩
    · rcases hcase with ⟨_, rfl⟩ | ⟨hD, _, _, _⟩
      · exact Or.inl rfl
      · exact Or.inr (hmemrange D hD)
    · intro hle
      rcases hcase with ⟨_, rfl⟩ | ⟨hD, hM, hlt, _⟩
      · rfl
      · exfalso
        have h1 : CycleDet.powerFn T len prices ub lb D ≤ 0 := hle D hD
        rw [← hM] at h1
        exact absurd (lt_of_lt_of_le hlt h1) (lt_irrefl 0)
    · intro hne
      rcases hcase with ⟨_, rfl⟩ | ⟨hD, hM, hlt, Hq⟩
      · exact absurd rfl hne
      · refine ⟨hD, ?_, ?_, ?_⟩
        · rw [← hM]; exact hlt
        · intro q hq hqD
          rw [← hM]
          exact Hq q hq hqD
        · intro q hq
          rw [← hM]
          exact hall q hq

/-- Witness for C4: the detector on 40 zero prices with the default
configuration returns, and its dominant cycle 18 lies in
`{0} ∪ [18, 40]`. -/
theorem claim_C4_dominant_cycle_witness :
    (18 : ℕ) = 0 ∨ (18 ≤ (18 : ℕ) ∧ (18 : ℕ) ≤ 40) := by
  have h := claim_C4_dominant_cycle Trig0 18 40 40 (List.replicate 40 0)
    ⟨18, List.replicate 40 0, List.replicate 40 0, List.replicate 40 0⟩
    (CycleDet.calculate_cycles_zero Trig0 18 40 40 40 (by norm_num) (by norm_num))
  exact h.1

/-- C5: `calculate_cycles` raises the insufficient-history error exactly when
the normalized signal (whose length equals the input length) has fewer than
`length` samples; with at least `length` samples it returns a result. -/
theorem claim_C5_insufficient_history (T : Trig) (lb ub len : ℕ) (prices : List ℚ) :
    (prices.length < len →
      CycleDet.calculate_cycles T lb ub len prices =
        Except.error (CycleDet.CycleError.notEnoughData len prices.length)) ∧
    (len ≤ prices.length →
      ∃ r, CycleDet.calculate_cycles T lb ub len prices = Except.ok r) := by
  have hs := CycleDet.signal_pipeline_length T (lb : ℚ) (ub : ℚ) prices
  constructor
  · intro h
    simp only [CycleDet.calculate_cycles]
    rw [hs, if_pos h]
  · intro h
    simp only [CycleDet.calculate_cycles]
    rw [hs, if_neg (not_lt.2 h)]
    exact ⟨_, rfl⟩

/-- Witness for C5: two data points with `length = 3` raise the
insufficient-history error; with `length = 2` the call returns. -/
theorem claim_C5_insufficient_history_witness :
    CycleDet.calculate_cycles Trig0 18 40 3 (List.replicate 2 0) =
      Except.error (CycleDet.CycleError.notEnoughData 3 2) ∧
    ∃ r, CycleDet.calculate_cycles Trig0 18 40 2 (List.replicate 2 0) =
      Except.ok r := by
  constructor
  · have h := (claim_C5_insufficient_history Trig0 18 40 3 (List.replicate 2 0)).1
      (by decide)
    simpa using h
  · exact (claim_C5_insufficient_history Trig0 18 40 2 (List.replicate 2 0)).2
      (by decide)

/-- C6 (amended): the `Cycle_detector.py` SuperSmoother returns a series
shorter than 2 samples unchanged, but the standalone
`SuperSmoother_filter_function.py` version raises an `IndexError` on such
series; for every series of length at least 2 both versions pass the first
two samples through unchanged. -/
theorem claim_C6_lowpass_boundary (T : Trig) (ps : List ℚ) (period : ℚ) :
    (ps.length < 2 →
      CycleDet.super_smoother T ps period = ps ∧
      SSFile.super_smoother T ps period = none) ∧
    (2 ≤ ps.length →
      (CycleDet.super_smoother T ps period).getD 0 0 = ps.getD 0 0 ∧
      (CycleDet.super_smoother T ps period).getD 1 0 = ps.getD 1 0 ∧
      ∃ out, SSFile.super_smoother T ps period = some out ∧
        out.getD 0 0 = ps.getD 0 0 ∧ out.getD 1 0 = ps.getD 1 0) := by
  constructor
  · intro h
    match ps, h with
    | [], _ => exact ⟨rfl, rfl⟩
    | [x], _ => exact ⟨rfl, rfl⟩
  · intro h
    match ps, h with
    | x0 :: x1 :: rest, _ =>
      exact ⟨rfl, rfl, _, rfl, rfl, rfl⟩

/-- Witness for C6 (amended) at an empty series and at a two-sample
series. -/
theorem claim_C6_lowpass_boundary_witness :
    (CycleDet.super_smoother Trig0 ([] : List ℚ) 14 = [] ∧
      SSFile.super_smoother Trig0 ([] : List ℚ) 14 = none) ∧
    (CycleDet.super_smoother Trig0 [3, 4] 14).getD 0 0 =
      ([3, 4] : List ℚ).getD 0 0 :=
  ⟨(claim_C6_lowpass_boundary Trig0 [] 14).1 (by decide),
    ((claim_C6_lowpass_boundary Trig0 [3, 4] 14).2 (by decide)).1⟩

/-- Counterexample for C6 as stated: the standalone
`SuperSmoother_filter_function.py` version does not return the empty series
unchanged — it fails (IndexError, modelled as `none`). -/
theorem claim_C6_counterexample :
    SSFile.super_smoother Trig0 ([] : List ℚ) 14 = none ∧
    (none : Option (List ℚ)) ≠ some ([] : List ℚ) :=
  ⟨rfl, by decide⟩

namespace USIViz

lemma usLoop_length (c1 c2 c3 : ℚ) :
    ∀ (l : List ℚ) (a b u v : ℚ), (usLoop c1 c2 c3 l a b u v).length = l.length := by
  intro l
  induction l with
  | nil => intro a b u v; rfl
  | cons x xs ih => intro a b u v; simp [usLoop, ih]

lemma ultimate_smoother_length (T : Trig) (data : List ℚ) (period : ℚ) :
    (ultimate_smoother T data period).length = data.length := by
  match data with
  | [] => rfl
  | [d0] => rfl
  | [d0, d1] => rfl
  | d0 :: d1 :: d2 :: rest =>
    simp only [ultimate_smoother]
    simp [usLoop_length]

lemma diffPrepend_length (prices : List ℚ) :
    (diffPrepend prices).length = prices.length := by
  match prices with
  | [] => rfl
  | x :: xs =>
    simp only [diffPrepend]
    simp

lemma usuOf_length (T : Trig) (prices : List ℚ) (period : ℚ) :
    (usuOf T prices period).length = prices.length := by
  unfold usuOf
  rw [ultimate_smoother_length, List.length_map, diffPrepend_length]

lemma usdOf_length (T : Trig) (prices : List ℚ) (period : ℚ) :
    (usdOf T prices period).length = prices.length := by
  unfold usdOf
  rw [ultimate_smoother_length, List.length_map, diffPrepend_length]

end USIViz

/-- C7: whenever `calculate_usi` returns, the oscillator equals
`(usu−usd)/(usu+usd)` exactly where `usu+usd > 0` and `usu > 0.01` and
`usd > 0.01`, and 0 elsewhere; consequently every entry lies in [-1, 1]. -/
theorem claim_C7_usi_formula (T : Trig) (prices : List ℚ) (period : ℚ)
    (usi : List ℚ) (h : USIViz.calculate_usi T prices period = Except.ok usi) :
    (∀ i, i < usi.length →
      usi.getD i 0 =
        (if (USIViz.usuOf T prices period).getD i 0 +
              (USIViz.usdOf T prices period).getD i 0 > 0 ∧
            (USIViz.usuOf T prices period).getD i 0 > 0.01 ∧
            (USIViz.usdOf T prices period).getD i 0 > 0.01 then
          ((USIViz.usuOf T prices period).getD i 0 -
              (USIViz.usdOf T prices period).getD i 0) /
            ((USIViz.usuOf T prices period).getD i 0 +
              (USIViz.usdOf T prices period).getD i 0)
        else 0)) ∧
    (∀ x ∈ usi, -1 ≤ x ∧ x ≤ 1) := by
  simp only [USIViz.calculate_usi, USIViz.calculate_su_sd] at h
  by_cases hp : prices.length = 0
  · rw [if_pos hp] at h
    exact absurd h (by simp)
  · rw [if_neg hp] at h
    simp only [Except.ok.injEq] at h
    subst h
    constructor
    · intro i hi
      have hiu : i < (USIViz.usuOf T prices period).length := by
        rw [USIViz.usuOf_length]
        rw [List.length_zipWith, USIViz.usuOf_length, USIViz.usdOf_length] at hi
        omega
      have hid : i < (USIViz.usdOf T prices period).length := by
        rw [USIViz.usdOf_length]
        rw [List.length_zipWith, USIViz.usuOf_length, USIViz.usdOf_length] at hi
        omega
      rw [List.getD_eq_getElem _ _ hi, List.getElem_zipWith,
        List.getD_eq_getElem _ _ hiu, List.getD_eq_getElem _ _ hid]
    · intro x hx
      obtain ⟨i, hi, rfl⟩ := List.mem_iff_getElem.1 hx
      rw [List.getElem_zipWith]
      constructor
      · split
        · next hcond =>
            obtain ⟨hsum, hub, hdb⟩ := hcond
            rw [le_div_iff₀ hsum]
            nlinarith
        · norm_num
      · split
        · next hcond =>
            obtain ⟨hsum, hub, hdb⟩ := hcond
            rw [div_le_one hsum]
            nlinarith
        · norm_num

/-- Witness for C7 on the two-sample series [1, 2]: the oscillator is
[0, 0] and its entries lie in [-1, 1]. -/
theorem claim_C7_usi_formula_witness :
    USIViz.calculate_usi Trig0 [1, 2] 14 = Except.ok [0, 0] ∧
    (-1 ≤ (0 : ℚ) ∧ (0 : ℚ) ≤ 1) := by
  have hok : USIViz.calculate_usi Trig0 [1, 2] 14 = Except.ok [0, 0] := by
    unfold USIViz.calculate_usi USIViz.calculate_su_sd USIViz.usuOf USIViz.usdOf
      USIViz.ultimate_smoother USIViz.diffPrepend
    norm_num
  exact ⟨hok, (claim_C7_usi_formula Trig0 [1, 2] 14 [0, 0] hok).2 0 (by simp)⟩

/-- C8 (amended): a multi-dimensional input (one with a nested-sequence
element) is rejected by `to_float_list` with an immediately raised fatal
input-shape error before any filtering; an EMPTY series, however, is NOT
rejected — `to_float_list` returns the empty list and `highpass_filter`
returns an empty (all-zero) series. -/
theorem claim_C8_input_shape (T : Trig) (data : List PyConv.PyVal) (period : ℚ) :
    ((∃ x ∈ data, x.isArr = true) →
      PyConv.highpass_filterP T data period =
        Except.error "Data appears to be multi-dimensional (list of lists). Expected 1D list of numeric values.") ∧
    (data = [] → PyConv.highpass_filterP T data period = Except.ok []) := by
  constructor
  · rintro ⟨x, hx, harr⟩
    unfold PyConv.highpass_filterP PyConv.to_float_list
    rw [if_pos (List.any_eq_true.2 ⟨x, hx, harr⟩)]
  · rintro rfl
    rfl

/-- Witness for C8 (amended): a one-element list containing a nested list is
rejected; the empty list is accepted with an empty result. -/
theorem claim_C8_input_shape_witness :
    PyConv.highpass_filterP Trig0 [PyConv.PyVal.arr []] 14 =
      Except.error "Data appears to be multi-dimensional (list of lists). Expected 1D list of numeric values." ∧
    PyConv.highpass_filterP Trig0 [] 14 = Except.ok [] :=
  ⟨(claim_C8_input_shape Trig0 [PyConv.PyVal.arr []] 14).1
      ⟨PyConv.PyVal.arr [], by simp, rfl⟩,
    (claim_C8_input_shape Trig0 [] 14).2 rfl⟩

/-- Counterexample for C8 as stated: an empty series is not rejected with an
input-shape error — the call succeeds and returns the empty series. -/
theorem claim_C8_counterexample :
    PyConv.highpass_filterP Trig0 ([] : List PyConv.PyVal) 14 = Except.ok [] :=
  rfl

/-- C9: the normalization divisor `peak` of `calculate_cycles` is at least
0.1 and at least every `|lp[i]|`, so every normalized signal entry has
absolute value at most 1. -/
theorem claim_C9_normalization_bound (lp : List ℚ) :
    (0.1 : ℚ) ≤ CycleDet.peakOf lp ∧
    (∀ x ∈ lp, |x| ≤ CycleDet.peakOf lp) ∧
    (∀ s ∈ CycleDet.signalOf lp, |s| ≤ 1) := by
  refine ⟨CycleDet.peakOf_ge lp, CycleDet.peakOf_ge_abs lp, ?_⟩
  intro s hs
  have hpeak : (0 : ℚ) < CycleDet.peakOf lp :=
    lt_of_lt_of_le (by norm_num) (CycleDet.peakOf_ge lp)
  unfold CycleDet.signalOf at hs
  rw [if_pos (ne_of_gt hpeak)] at hs
  obtain ⟨x, hx, rfl⟩ := List.mem_map.1 hs
  rw [abs_div, abs_of_pos hpeak, div_le_one hpeak]
  exact CycleDet.peakOf_ge_abs lp x hx

/-- Witness for C9 at the lowpass series [2, -3]: the peak dominates 0.1 and
the sample magnitudes. -/
theorem claim_C9_normalization_bound_witness :
    |(-3 : ℚ)| ≤ CycleDet.peakOf [2, -3] :=
  (claim_C9_normalization_bound [2, -3]).2.1 (-3) (by simp)

namespace USmooth

lemma suSdLoop_length : ∀ (rest : List ℚ) (prev : ℚ),
    (suSdLoop rest prev).length = rest.length := by
  intro rest
  induction rest with
  | nil => intro prev; rfl
  | cons p tl ih => intro prev; simp [suSdLoop, ih]

lemma suSdLoop_getD : ∀ (rest : List ℚ) (prev : ℚ) (i : ℕ), i < rest.length →
    (suSdLoop rest prev).getD i (0, 0) =
      ((if rest.getD i 0 > (prev :: rest).getD i 0 then
          rest.getD i 0 - (prev :: rest).getD i 0 else 0),
       (if rest.getD i 0 < (prev :: rest).getD i 0 then
          (prev :: rest).getD i 0 - rest.getD i 0 else 0)) := by
  intro rest
  induction rest with
  | nil => intro prev i h; simp at h
  | cons p tl ih =>
    intro prev i h
    cases i with
    | zero => simp [suSdLoop]
    | succ j =>
      simp only [suSdLoop, List.getD_cons_succ]
      exact ih p j (by simpa using h)

end USmooth

lemma USmooth.usmooth_su_sd_spec (prices : List ℚ) :
    (0 < prices.length →
      (USmooth.calculate_su_sd prices).1.getD 0 0 = 0 ∧
      (USmooth.calculate_su_sd prices).2.getD 0 0 = 0) ∧
    (∀ i, 1 ≤ i → i < prices.length →
      0 ≤ (USmooth.calculate_su_sd prices).1.getD i 0 ∧
      0 ≤ (USmooth.calculate_su_sd prices).2.getD i 0 ∧
      (USmooth.calculate_su_sd prices).1.getD i 0 *
        (USmooth.calculate_su_sd prices).2.getD i 0 = 0 ∧
      (USmooth.calculate_su_sd prices).1.getD i 0 -
        (USmooth.calculate_su_sd prices).2.getD i 0 =
        prices.getD i 0 - prices.getD (i - 1) 0) := by
  match prices with
  | [] =>
    refine ⟨fun h => absurd h (by simp), fun i h1 h2 => absurd h2 (by simp)⟩
  | p0 :: rest =>
    constructor
    · intro _
      exact ⟨rfl, rfl⟩
    · intro i h1 h2
      obtain ⟨j, rfl⟩ : ∃ j, i = j + 1 := ⟨i - 1, by omega⟩
      have hj : j < rest.length := by simpa using h2
      have hjl : j < (USmooth.suSdLoop rest p0).length := by
        rw [USmooth.suSdLoop_length]; exact hj
      have hsu : (USmooth.calculate_su_sd (p0 :: rest)).1.getD (j + 1) 0 =
          ((USmooth.suSdLoop rest p0).getD j (0, 0)).1 := by
        simp only [USmooth.calculate_su_sd, List.getD_cons_succ]
        rw [List.getD_eq_getElem _ _ (by simpa using hjl), List.getElem_map,
          List.getD_eq_getElem _ _ hjl]
      have hsd : (USmooth.calculate_su_sd (p0 :: rest)).2.getD (j + 1) 0 =
          ((USmooth.suSdLoop rest p0).getD j (0, 0)).2 := by
        simp only [USmooth.calculate_su_sd, List.getD_cons_succ]
        rw [List.getD_eq_getElem _ _ (by simpa using hjl), List.getElem_map,
          List.getD_eq_getElem _ _ hjl]
      rw [hsu, hsd, USmooth.suSdLoop_getD rest p0 j hj]
      dsimp only
      have hcur : (p0 :: rest).getD (j + 1) 0 = rest.getD j 0 := List.getD_cons_succ
      have hprev : (p0 :: rest).getD (j + 1 - 1) 0 = (p0 :: rest).getD j 0 := by
        congr 1
      rw [hcur, hprev]
      rcases lt_trichotomy ((p0 :: rest).getD j 0) (rest.getD j 0) with hlt | heq | hgt
      · rw [if_pos hlt, if_neg (by linarith)]
        refine ⟨by linarith, le_refl 0, by ring, by ring⟩
      · rw [if_neg (by rw [heq]; exact lt_irrefl _),
          if_neg (by rw [heq]; exact lt_irrefl _)]
        refine ⟨le_refl 0, le_refl 0, by ring, by rw [heq]; ring⟩
      · rw [if_neg (by linarith), if_pos hgt]
        refine ⟨le_refl 0, by linarith, by ring, by ring⟩

lemma USIViz.diffPrepend_getD_zero (p0 : ℚ) (rest : List ℚ) :
    (USIViz.diffPrepend (p0 :: rest)).getD 0 0 = 0 := by
  simp [USIViz.diffPrepend]

lemma USIViz.diffPrepend_getD_succ (p0 : ℚ) (rest : List ℚ) (j : ℕ)
    (h : j < rest.length) :
    (USIViz.diffPrepend (p0 :: rest)).getD (j + 1) 0 =
      rest.getD j 0 - (p0 :: rest).getD j 0 := by
  simp only [USIViz.diffPrepend, List.zipWith_cons_cons, List.getD_cons_succ]
  have hz : j < (List.zipWith (fun a b => a - b) rest (p0 :: rest)).length := by
    rw [List.length_zipWith]
    simp
    omega
  rw [List.getD_eq_getElem _ _ hz, List.getElem_zipWith,
    List.getD_eq_getElem _ _ (by simpa using h),
    List.getD_eq_getElem _ _ (by simp; omega)]

lemma USIViz.usiviz_su_sd_spec (prices su sd : List ℚ)
    (h : USIViz.calculate_su_sd prices = Except.ok (su, sd)) :
    su.getD 0 0 = 0 ∧ sd.getD 0 0 = 0 ∧
    ∀ i, 1 ≤ i → i < prices.length →
      0 ≤ su.getD i 0 ∧ 0 ≤ sd.getD i 0 ∧
      su.getD i 0 * sd.getD i 0 = 0 ∧
      su.getD i 0 - sd.getD i 0 = prices.getD i 0 - prices.getD (i - 1) 0 := by
  unfold USIViz.calculate_su_sd at h
  by_cases hp : prices.length = 0
  · rw [if_pos hp] at h
    exact absurd h (by simp)
  · rw [if_neg hp] at h
    simp only [Except.ok.injEq, Prod.mk.injEq] at h
    obtain ⟨hsu, hsd⟩ := h
    obtain ⟨p0, rest, rfl⟩ : ∃ p0 rest, prices = p0 :: rest := by
      cases prices with
      | nil => simp at hp
      | cons a l => exact ⟨a, l, rfl⟩
    have hdlen : (USIViz.diffPrepend (p0 :: rest)).length = rest.length + 1 := by
      rw [USIViz.diffPrepend_length]; rfl
    have hmapD : ∀ (f : ℚ → ℚ) (i : ℕ), f 0 = 0 → i < rest.length + 1 →
        ((USIViz.diffPrepend (p0 :: rest)).map f).getD i 0 =
          f ((USIViz.diffPrepend (p0 :: rest)).getD i 0) := by
      intro f i hf hi
      rw [List.getD_eq_getElem _ _ (by simp [hdlen]; omega), List.getElem_map,
        List.getD_eq_getElem _ _ (by rw [hdlen]; omega)]
    refine ⟨?_, ?_, ?_⟩
    · rw [← hsu, hmapD _ 0 (by norm_num) (by omega), USIViz.diffPrepend_getD_zero]
      norm_num
    · rw [← hsd, hmapD _ 0 (by norm_num) (by omega), USIViz.diffPrepend_getD_zero]
      norm_num
    · intro i h1 h2
      obtain ⟨j, rfl⟩ : ∃ j, i = j + 1 := ⟨i - 1, by omega⟩
      have hj : j < rest.length := by simpa using h2
      rw [← hsu, ← hsd, hmapD _ (j + 1) (by norm_num) (by omega),
        hmapD _ (j + 1) (by norm_num) (by omega),
        USIViz.diffPrepend_getD_succ p0 rest j hj]
      have hcur : (p0 :: rest).getD (j + 1) 0 = rest.getD j 0 := List.getD_cons_succ
      have hprev : (p0 :: rest).getD (j + 1 - 1) 0 = (p0 :: rest).getD j 0 := by
        congr 1
      rw [hcur, hprev]
      rcases lt_trichotomy (rest.getD j 0 - (p0 :: rest).getD j 0) 0
        with hlt | heq | hgt
      · rw [max_eq_right (le_of_lt hlt), max_eq_left (by linarith)]
        refine ⟨le_refl 0, by linarith, by ring, by ring⟩
      · rw [heq]
        norm_num
      · rw [max_eq_left (by linarith), max_eq_right (by linarith)]
        refine ⟨by linarith, le_refl 0, by ring, by ring⟩

/-- C10: both `calculate_su_sd` implementations yield `su[0] = sd[0] = 0`
and, for every index i ≥ 1, nonnegative `su[i]` and `sd[i]` of which at most
one is nonzero, with `su[i] − sd[i] = prices[i] − prices[i−1]`. -/
theorem claim_C10_su_sd (prices : List ℚ) :
    ((0 < prices.length →
      (USmooth.calculate_su_sd prices).1.getD 0 0 = 0 ∧
      (USmooth.calculate_su_sd prices).2.getD 0 0 = 0) ∧
    (∀ i, 1 ≤ i → i < prices.length →
      0 ≤ (USmooth.calculate_su_sd prices).1.getD i 0 ∧
      0 ≤ (USmooth.calculate_su_sd prices).2.getD i 0 ∧
      (USmooth.calculate_su_sd prices).1.getD i 0 *
        (USmooth.calculate_su_sd prices).2.getD i 0 = 0 ∧
      (USmooth.calculate_su_sd prices).1.getD i 0 -
        (USmooth.calculate_su_sd prices).2.getD i 0 =
        prices.getD i 0 - prices.getD (i - 1) 0)) ∧
    (∀ su sd, USIViz.calculate_su_sd prices = Except.ok (su, sd) →
      su.getD 0 0 = 0 ∧ sd.getD 0 0 = 0 ∧
      ∀ i, 1 ≤ i → i < prices.length →
        0 ≤ su.getD i 0 ∧ 0 ≤ sd.getD i 0 ∧
        su.getD i 0 * sd.getD i 0 = 0 ∧
        su.getD i 0 - sd.getD i 0 = prices.getD i 0 - prices.getD (i - 1) 0) :=
  ⟨USmooth.usmooth_su_sd_spec prices,
    fun su sd h => USIViz.usiviz_su_sd_spec prices su sd h⟩

/-- Witness for C10 at the concrete series [1, 2]. -/
theorem claim_C10_su_sd_witness :
    (USmooth.calculate_su_sd [1, 2]).1.getD 0 0 = 0 ∧
    (USmooth.calculate_su_sd [1, 2]).2.getD 0 0 = 0 :=
  (claim_C10_su_sd [1, 2]).1.1 (by simp)
